import Mathlib

/-!
Verification development for the FidruaWatch batch-correlation engine
(src/main.go). The Go code is shallowly embedded: each Lean definition
below is a direct translation of the corresponding Go function, with
the following standing determinizations, each noted at its definition:
machine int64 values are modelled as Int, timestamps as Int nanosecond
counts, Go map iteration is modelled by list order (harmless wherever at
most one element can match, which the registry invariants guarantee),
and strings use ASCII case folding as the Go code only ever compares
ASCII extension and marker strings.
-/

namespace FidruaWatch

/-- Status models the Go string field Batch.Status, which the code only
ever assigns the three constants "uploading", "completed", "signed". -/
inductive Status where
  | uploading
  | completed
  | signed
deriving DecidableEq, Repr

/-- Batch mirrors the Go struct Batch (src/main.go lines 27-37). The Go
map FileSizes (map[string]int64, absent keys reading as 0) is modelled
as an association list read through lookupSize; int64 sizes and
time.Time values are modelled as Int. The Notified field exists in the
Go struct but is never read or written by main.go. -/
structure Batch where
  id : String
  folder : String
  files : List String
  fileSizes : List (String × Int)
  totalSize : Int
  status : Status
  startTime : Int
  lastTime : Int
  notified : Bool := false
deriving DecidableEq, Repr

/-- Go map read batch.FileSizes[fileName]: first binding of the key, 0
when absent (the zero value of int64). -/
def lookupSize (m : List (String × Int)) (k : String) : Int :=
  match m.find? (fun p => p.1 = k) with
  | some p => p.2
  | none => 0

/-- Go map write batch.FileSizes[fileName] = v: replace the first
binding of the key, or append a fresh binding. -/
def setSize (m : List (String × Int)) (k : String) (v : Int) :
    List (String × Int) :=
  match m with
  | [] => [(k, v)]
  | p :: rest => if p.1 = k then (k, v) :: rest else p :: setSize rest k v

/-- Config mirrors the Go struct Config (src/main.go lines 40-51); the
completion timeout is an integer number of seconds. -/
structure Config where
  VideoEnabled : Bool
  ImageEnabled : Bool
  AudioEnabled : Bool
  DocEnabled : Bool
  ArchiveEnabled : Bool
  CustomExts : String
  MonitorSubdirs : Bool
  CompletionTimeout : Int
  NotifyOnStart : Bool
  NotifyOnComplete : Bool
deriving DecidableEq, Repr

/-- Fixed transient-marker list, src/main.go lines 53-56. -/
def tempFilePatterns : List String :=
  [".tmp", ".temp", ".part", ".partial", ".crdownload", "~$", ".swp", ".lock"]

def videoExts : List String :=
  [".mp4", ".avi", ".mkv", ".mov", ".wmv", ".flv", ".webm", ".m4v",
   ".mpeg", ".mpg", ".3gp", ".ts"]

def imageExts : List String :=
  [".jpg", ".jpeg", ".png", ".gif", ".bmp", ".webp", ".svg", ".ico",
   ".tiff", ".psd"]

def audioExts : List String :=
  [".mp3", ".wav", ".flac", ".aac", ".ogg", ".wma", ".m4a", ".opus"]

def docExts : List String :=
  [".pdf", ".doc", ".docx", ".xls", ".xlsx", ".ppt", ".pptx", ".txt",
   ".md", ".csv"]

def archiveExts : List String :=
  [".zip", ".rar", ".7z", ".tar", ".gz", ".bz2", ".xz"]

/-- ASCII lower-casing of one character, the restriction of Go
unicode.ToLower to the character range the engine compares (extensions
and transient markers are all ASCII). -/
def charToLower (c : Char) : Char :=
  if 65 ≤ c.toNat ∧ c.toNat ≤ 90 then Char.ofNat (c.toNat + 32) else c

/-- Go strings.ToLower restricted to ASCII case folding. -/
def strToLower (s : String) : String :=
  String.mk (s.data.map charToLower)

/-- ASCII whitespace, the restriction of the Go unicode space class
used by strings.TrimSpace. -/
def isSpaceChar (c : Char) : Bool :=
  c.toNat = 32 ∨ (9 ≤ c.toNat ∧ c.toNat ≤ 13)

/-- Go strings.TrimSpace restricted to ASCII whitespace. -/
def strTrim (s : String) : String :=
  String.mk (((s.data.dropWhile isSpaceChar).reverse.dropWhile isSpaceChar).reverse)

/-- Go strings.Split with the one-character comma separator. -/
def splitComma : List Char → List (List Char)
  | [] => [[]]
  | c :: rest =>
    if c = ',' then [] :: splitComma rest
    else
      match splitComma rest with
      | [] => [[c]]
      | g :: gs => (c :: g) :: gs

/-- Go strings.Contains: the needle occurs as a contiguous substring. -/
def strContains (s sub : String) : Bool :=
  s.data.tails.any (fun t => sub.data.isPrefixOf t)

/-- Go strings.HasPrefix. -/
def strHasPrefix (s pre : String) : Bool :=
  pre.data.isPrefixOf s.data

/-- Path separator of the Unix filepath flavor; the Go filepath package
is platform specific and this development models the slash platform. -/
def isPathSep (c : Char) : Bool := c = '/'

/-- Helper for filepathExt: walks the reversed character list of the
path, collecting characters until the last dot of the final element. -/
def extRev : List Char → List Char → String
  | [], _ => ""
  | c :: rest, acc =>
    if isPathSep c then ""
    else if c = '.' then String.mk (c :: acc)
    else extRev rest (c :: acc)

/-- Go filepath.Ext: the suffix of the final path element starting at
its last dot, or the empty string when the final element has no dot. -/
def filepathExt (p : String) : String :=
  extRev p.data.reverse []

/-- Go filepath.Base: strip trailing separators and keep what follows
the last separator; empty path gives ".", an all-separator path gives
the separator. -/
def filepathBase (p : String) : String :=
  if p.data.isEmpty then "."
  else
    let rest := p.data.reverse.dropWhile isPathSep
    let name := rest.takeWhile (fun c => ¬ isPathSep c)
    if name.isEmpty then "/" else String.mk name.reverse

/-- Go getEnabledExts (src/main.go lines 117-147): concatenation of the
extension lists of the enabled categories, followed by the normalized
custom list (split on commas, trimmed, empties skipped, a leading dot
forced, lower-cased). -/
def getEnabledExts (config : Config) : List String :=
  (if config.VideoEnabled then videoExts else []) ++
  (if config.ImageEnabled then imageExts else []) ++
  (if config.AudioEnabled then audioExts else []) ++
  (if config.DocEnabled then docExts else []) ++
  (if config.ArchiveEnabled then archiveExts else []) ++
  (if config.CustomExts = "" then []
   else ((splitComma config.CustomExts.data).map String.mk).filterMap (fun raw =>
     let ext := strTrim raw
     if ext = "" then none
     else some (strToLower (if strHasPrefix ext "." then ext else "." ++ ext))))

/-- Go isTempFile (src/main.go lines 534-542): the lower-cased base
name contains or starts with one of the fixed transient markers. -/
def isTempFile (path : String) : Bool :=
  let name := strToLower (filepathBase path)
  tempFilePatterns.any (fun pattern =>
    strContains name pattern || strHasPrefix name pattern)

/-- Go isMonitoredFile (src/main.go lines 521-532): reject temporary
artifacts, otherwise accept exactly when the lower-cased extension
occurs in the enabled-extension list. -/
def isMonitoredFile (config : Config) (path : String) : Bool :=
  if isTempFile path then false
  else
    let ext := strToLower (filepathExt path)
    (getEnabledExts config).any (fun ve => ext = ve)

/-- Unit characters of the Go string constant "KMGTPE" indexed by the
loop exponent in formatSize. -/
def unitChars : List Char := ['K', 'M', 'G', 'T', 'P', 'E']

/-- Loop of Go formatSize (src/main.go lines 549-553) translated with
structural fuel: div starts at 1024 and exp at 0, and while
n >= 1024 the loop divides n by 1024, multiplies div by 1024 and
increments exp. Fuel equal to the starting n always suffices because
every iteration requires n >= 1024 and replaces n by n / 1024. -/
def sizeLoopAux : Nat → Nat → Nat → Nat → Nat × Nat
  | 0, _, div, exp => (div, exp)
  | fuel + 1, n, div, exp =>
    if 1024 ≤ n then sizeLoopAux fuel (n / 1024) (div * 1024) (exp + 1)
    else (div, exp)

/-- Final div and exp of the Go formatSize loop applied to
n = bytes / 1024. -/
def sizeLoop (n : Nat) : Nat × Nat :=
  sizeLoopAux n n 1024 0

/-- Rounding of a/b to the nearest integer, ties to even, modelling the
Go fmt %.1f rounding applied to an exactly representable quotient. -/
def roundHalfEven (a b : Nat) : Nat :=
  let q := a / b
  let r := a % b
  if 2 * r < b then q
  else if b < 2 * r then q + 1
  else if q % 2 = 0 then q else q + 1

/-- Go formatSize (src/main.go lines 544-555). Inputs below 1024 print
as "%d B"; otherwise the loop chooses div and exp and the result is
"%.1f %cB" with the character "KMGTPE"[exp]. The float64 division plus
%.1f formatting is modelled as exact rational rounding to one decimal
(round half to even), which agrees with the Go code whenever the
quotient is exactly representable in one decimal, as for every input
considered in this development. -/
def formatSize (bytes : Int) : String :=
  if bytes < 1024 then toString bytes ++ " B"
  else
    let p := sizeLoop (bytes.toNat / 1024)
    let scaled := roundHalfEven (10 * bytes.toNat) p.1
    toString (scaled / 10) ++ "." ++ toString (scaled % 10) ++ " " ++
      String.mk [unitChars.getD p.2 'E'] ++ "B"

/-- Match predicate of the addFileToBatch search loop (src/main.go
lines 570-575): a batch for this folder that is still uploading. -/
def isUploadingIn (folder : String) (b : Batch) : Bool :=
  decide (b.folder = folder ∧ b.status = Status.uploading)

/-- Replacement of the first list element satisfying p, modelling the
in-place mutation through the pointer found by the Go search loop. -/
def updateFirst (p : Batch → Bool) (f : Batch → Batch) :
    List Batch → List Batch
  | [] => []
  | b :: rest => if p b then f b :: rest else b :: updateFirst p f rest

/-- Insertion batches[b.ID] = b into the Go map: any existing entry
under the same key is replaced. -/
def insertBatch (b : Batch) (bs : List Batch) : List Batch :=
  b :: bs.filter (fun x => x.id ≠ b.id)

/-- Freshly created batch of src/main.go lines 578-585: the id is the
decimal rendering of the creation timestamp (time.Now().UnixNano()),
the file list and size map start empty, the status is uploading.
LastTime and the unread Notified field keep their Go zero values until
the tail of addFileToBatch assigns LastTime. -/
def newBatch (folder : String) (now : Int) : Batch :=
  { id := toString now
    folder := folder
    files := []
    fileSizes := []
    totalSize := 0
    status := Status.uploading
    startTime := now
    lastTime := 0 }

/-- Mutation tail of addFileToBatch (src/main.go lines 590-607) applied
to the found or created batch: append the file name unless present,
raise the recorded size and the total exactly when the observed size
strictly exceeds the recorded one, and refresh the activity time. -/
def addFileUpdate (b : Batch) (fileName : String) (fileSize now : Int) :
    Batch :=
  let b1 := if fileName ∈ b.files then b
            else { b with files := b.files ++ [fileName] }
  let oldSize := lookupSize b1.fileSizes fileName
  let b2 := if oldSize < fileSize then
              { b1 with totalSize := b1.totalSize + (fileSize - oldSize)
                        fileSizes := setSize b1.fileSizes fileName fileSize }
            else b1
  { b2 with lastTime := now }

/-- Go addFileToBatch (src/main.go lines 557-609). The Go function
receives a path and splits it with filepath.Dir and filepath.Base; the
event is modelled after that split as the (folder, fileName) pair, and
the best-effort stat result (0 on failure) arrives as fileSize. The
three time.Now() calls of one invocation are modelled as the single
instant now. The registry map is modelled as a list; the Go range loop
picks an arbitrary matching entry, which the at-most-one-uploading
invariant proved below makes unique, so taking the first match loses no
generality. Returns the new registry and the isNewBatch flag. -/
def addFileToBatch (bs : List Batch) (folder fileName : String)
    (fileSize now : Int) : List Batch × Bool :=
  match bs.find? (isUploadingIn folder) with
  | some _ =>
    (updateFirst (isUploadingIn folder)
      (fun b => addFileUpdate b fileName fileSize now) bs, false)
  | none =>
    (insertBatch (addFileUpdate (newBatch folder now) fileName fileSize now)
      bs, true)

/-- Clamp of the completion timeout (src/main.go lines 615-618) in
seconds: a configured value below 10 seconds is replaced by 30. -/
def clampTimeout (cfgSeconds : Int) : Int :=
  if cfgSeconds < 10 then 30 else cfgSeconds

/-- Body of one ticker iteration of checkCompletions (src/main.go lines
625-637), with timeout and the tick instant in seconds: every batch
still uploading whose inactivity now - lastTime strictly exceeds the
timeout is promoted to completed; nothing else changes. -/
def scanTick (timeout now : Int) (bs : List Batch) : List Batch :=
  bs.map (fun b =>
    if b.status = Status.uploading ∧ timeout < now - b.lastTime then
      { b with status := Status.completed }
    else b)

/-- Body of the per-batch sign button handler (src/main.go lines
244-251): look the id up in the registry map and set that batch to
signed. -/
def signClick (bs : List Batch) (id : String) : List Batch :=
  bs.map (fun b => if b.id = id then { b with status := Status.signed } else b)

/-- Sign operation on one batch as the UI exposes it (src/main.go lines
243-254): the sign button is created only for a batch rendered with
status completed, and clicking it runs signClick on that id. In this
sequential embedding the render and the click observe the same
registry state. -/
def signBatch (bs : List Batch) (id : String) : List Batch :=
  match bs.find? (fun b => b.id = id) with
  | some b => if b.status = Status.completed then signClick bs id else bs
  | none => bs

/-- Sign-all button handler (src/main.go lines 325-334): every
completed batch becomes signed. -/
def signAll (bs : List Batch) : List Batch :=
  bs.map (fun b =>
    if b.status = Status.completed then { b with status := Status.signed }
    else b)

/-- Clear button handler (src/main.go lines 337-346): delete every
signed batch from the registry map. -/
def clearSigned (bs : List Batch) : List Batch :=
  bs.filter (fun b => b.status ≠ Status.signed)

/-- Operations that touch the batch registry. The scan operation
carries the effective timeout and the tick instant; addFile carries the
decomposed event data. -/
inductive Op where
  | addFile (folder fileName : String) (fileSize now : Int)
  | scan (timeout now : Int)
  | sign (id : String)
  | signAllOp
  | clearSignedOp

def applyOp (bs : List Batch) : Op → List Batch
  | Op.addFile f n sz now => (addFileToBatch bs f n sz now).1
  | Op.scan t now => scanTick t now bs
  | Op.sign id => signBatch bs id
  | Op.signAllOp => signAll bs
  | Op.clearSignedOp => clearSigned bs

/-- Sequential execution of registry operations, as serialized by the
batchesMu lock in the Go program. -/
def runOps (bs : List Batch) (ops : List Op) : List Batch :=
  ops.foldl applyOp bs

/-- Run of addFileToBatch calls for one folder, collecting the
isNewBatch results; events carry (fileName, fileSize, now). -/
def runAddFiles (folder : String) (bs : List Batch) :
    List (String × Int × Int) → List Batch × List Bool
  | [] => (bs, [])
  | e :: rest =>
    let step := addFileToBatch bs folder e.1 e.2.1 e.2.2
    let tail := runAddFiles folder step.1 rest
    (tail.1, step.2 :: tail.2)

/-- Run of the checkCompletions goroutine (src/main.go lines 611-641)
over a list of ticks. The Go code computes the timeout from
config.CompletionTimeout once, before entering the ticker loop, so
every tick uses the clamp of the configuration value read at scanner
start. Each tick carries (now, cfgNow) where cfgNow is the live
configuration value at that instant, which the code never consults. -/
def checkCompletionsRun (cfgAtStart : Int) (ticks : List (Int × Int))
    (bs : List Batch) : List Batch :=
  ticks.foldl (fun st t => scanTick (clampTimeout cfgAtStart) t.1 st) bs

/-- Modelled from the spec wording for comparison: a scanner that
re-reads the configured timeout on every tick and clamps it then,
so a configuration change takes effect on the very next tick. -/
def checkCompletionsRunSpec (cfgAtStart : Int) (ticks : List (Int × Int))
    (bs : List Batch) : List Batch :=
  let _ := cfgAtStart
  ticks.foldl (fun st t => scanTick (clampTimeout t.2) t.1 st) bs

/-- Forward order of the batch state machine. -/
def statusRank : Status → Nat
  | Status.uploading => 0
  | Status.completed => 1
  | Status.signed => 2

/-- Claim invariant: at most one uploading batch per distinct folder. -/
def atMostOneUploading (bs : List Batch) : Prop :=
  ∀ folder, bs.countP (isUploadingIn folder) ≤ 1

/-- Per-batch well-formedness maintained by the engine: the file list
holds no duplicates and the running total equals the sum of the
recorded per-file sizes. -/
def BatchWF (b : Batch) : Prop :=
  b.files.Nodup ∧ b.totalSize = ((b.fileSizes.map (fun p => p.2)).sum : Int)

/-- Freshness of the id a creation would use: the decimal rendering of
the creation instant does not collide with an id already present. -/
def opFresh (bs : List Batch) : Op → Prop
  | Op.addFile _ _ _ now => ∀ b ∈ bs, b.id ≠ toString now
  | _ => True

/-- Concrete uploading batch used in counterexample scenarios. -/
def sampleUploading : Batch :=
  { id := "1"
    folder := "/up"
    files := ["a.mp4"]
    fileSizes := [("a.mp4", 100)]
    totalSize := 100
    status := Status.uploading
    startTime := 0
    lastTime := 0 }

/-- First creation of the timestamp-collision scenario: a file lands in
folder /a at instant 5. -/
def collideStep1 : List Batch × Bool := addFileToBatch [] "/a" "x.mp4" 1 5

/-- Second creation of the timestamp-collision scenario: a file lands
in a different folder /b at the same instant 5, so the new batch reuses
the id "5". -/
def collideStep2 : List Batch × Bool :=
  addFileToBatch collideStep1.1 "/b" "y.mp4" 1 5

/-- Default configuration installed by the Go init function
(src/main.go lines 85-101). -/
def defaultConfig : Config :=
  { VideoEnabled := true
    ImageEnabled := false
    AudioEnabled := false
    DocEnabled := false
    ArchiveEnabled := false
    CustomExts := ""
    MonitorSubdirs := true
    CompletionTimeout := 30
    NotifyOnStart := true
    NotifyOnComplete := true }

/-- Concrete completed batch used in witness scenarios. -/
def sampleCompleted : Batch := { sampleUploading with status := Status.completed }

/-- Concrete signed batch used in witness scenarios. -/
def sampleSigned : Batch :=
  { sampleUploading with id := "2", status := Status.signed }

/-- Distinctness of the registry keys: the Go registry is a map keyed
by id, which the list model reflects as pairwise distinct ids. -/
def idsNodup (bs : List Batch) : Prop :=
  (bs.map (fun b => b.id)).Nodup

/-! Helper lemmas shared by the claim theorems. -/

theorem lookupSize_cons (p : String × Int) (m : List (String × Int)) (k : String) :
    lookupSize (p :: m) k = if p.1 = k then p.2 else lookupSize m k := by
  simp only [lookupSize, List.find?]
  by_cases h : p.1 = k <;> simp [h]

theorem sum_setSize (m : List (String × Int)) (k : String) (v : Int) :
    (((setSize m k v).map (fun p => p.2)).sum : Int)
      = ((m.map (fun p => p.2)).sum : Int) + v - lookupSize m k := by
  induction m with
  | nil => simp [setSize, lookupSize]
  | cons p rest ih =>
    rw [lookupSize_cons]
    by_cases h : p.1 = k
    · simp [setSize, h]
      ring
    · simp [setSize, h, ih]
      ring

theorem lookupSize_setSize_self (m : List (String × Int)) (k : String) (v : Int) :
    lookupSize (setSize m k v) k = v := by
  induction m with
  | nil => simp [setSize, lookupSize_cons]
  | cons p rest ih =>
    by_cases h : p.1 = k
    · simp [setSize, h, lookupSize_cons]
    · simp [setSize, h, lookupSize_cons, ih]

theorem lookupSize_setSize_ne (m : List (String × Int)) (k k' : String)
    (v : Int) (h : k' ≠ k) :
    lookupSize (setSize m k v) k' = lookupSize m k' := by
  have hkk : (k = k') = False := eq_false (fun hh => h hh.symm)
  induction m with
  | nil => simp [setSize, lookupSize_cons, lookupSize, hkk]
  | cons p rest ih =>
    by_cases hp : p.1 = k
    · subst hp
      simp [setSize, lookupSize_cons, hkk]
    · simp [setSize, hp, lookupSize_cons, ih]

theorem addFileUpdate_id (b : Batch) (n : String) (sz now : Int) :
    (addFileUpdate b n sz now).id = b.id := by
  simp only [addFileUpdate]
  split <;> split <;> rfl

theorem addFileUpdate_folder (b : Batch) (n : String) (sz now : Int) :
    (addFileUpdate b n sz now).folder = b.folder := by
  simp only [addFileUpdate]
  split <;> split <;> rfl

theorem addFileUpdate_status (b : Batch) (n : String) (sz now : Int) :
    (addFileUpdate b n sz now).status = b.status := by
  simp only [addFileUpdate]
  split <;> split <;> rfl

theorem updateFirst_countP (p q : Batch → Bool) (f : Batch → Batch)
    (l : List Batch) (h : ∀ x, q (f x) = q x) :
    (updateFirst p f l).countP q = l.countP q := by
  induction l with
  | nil => rfl
  | cons b r ih =>
    simp only [updateFirst]
    split
    · simp [List.countP_cons, h]
    · simp [List.countP_cons, ih]

theorem updateFirst_mem (p : Batch → Bool) (f : Batch → Batch)
    {l : List Batch} {a : Batch} (ha : a ∈ l) :
    a ∈ updateFirst p f l ∨ (p a = true ∧ f a ∈ updateFirst p f l) := by
  induction l with
  | nil => cases ha
  | cons b r ih =>
    rcases List.mem_cons.mp ha with rfl | hr
    · simp only [updateFirst]
      by_cases hp : p a
      · right
        simp [hp]
      · left
        simp [hp]
    · simp only [updateFirst]
      split
      · left
        exact List.mem_cons_of_mem _ hr
      · rcases ih hr with h1 | ⟨h1, h2⟩
        · exact Or.inl (List.mem_cons_of_mem _ h1)
        · exact Or.inr ⟨h1, List.mem_cons_of_mem _ h2⟩

theorem countP_map_le (q : Batch → Bool) (f : Batch → Batch)
    (l : List Batch) (h : ∀ x ∈ l, q (f x) = true → q x = true) :
    (l.map f).countP q ≤ l.countP q := by
  rw [List.countP_map]
  exact List.countP_mono_left (fun x hx => h x hx)

theorem statusRank_le_two (s : Status) : statusRank s ≤ 2 := by
  cases s <;> simp [statusRank]

theorem scanTick_mem_of_not_uploading {b : Batch} {bs : List Batch}
    (t now : Int) (hb : b ∈ bs) (h : b.status ≠ Status.uploading) :
    b ∈ scanTick t now bs := by
  refine List.mem_map.mpr ⟨b, hb, ?_⟩
  show (if b.status = Status.uploading ∧ t < now - b.lastTime then
      { b with status := Status.completed } else b) = b
  rw [if_neg]
  intro hc
  exact h hc.1

theorem sizeLoopAux_exp_le (fuel : Nat) :
    ∀ (n div e k : Nat), n < 1024 ^ (k + 1) →
      (sizeLoopAux fuel n div e).2 ≤ e + k := by
  induction fuel with
  | zero =>
    intro n div e k _
    exact Nat.le_add_right e k
  | succ f ih =>
    intro n div e k h
    simp only [sizeLoopAux]
    split
    case isTrue hn =>
      cases k with
      | zero =>
        simp only [pow_one, Nat.zero_add] at h
        omega
      | succ kk =>
        have hlt : n / 1024 < 1024 ^ (kk + 1) := by
          rw [Nat.div_lt_iff_lt_mul (by norm_num)]
          calc n < 1024 ^ (kk + 1 + 1) := h
            _ = 1024 ^ (kk + 1) * 1024 := by rw [pow_succ]
        have h2 := ih (n / 1024) (div * 1024) (e + 1) kk hlt
        omega
    case isFalse => exact Nat.le_add_right e k

/-! Theorems for the claims. -/

/-- Claim C8: formatSize uses base-1024 units with one decimal place
once the value is at least 1024 bytes, and in particular
formatSize 0 = "0 B", formatSize 1024 = "1.0 KB",
formatSize 1536 = "1.5 KB", formatSize 1048576 = "1.0 MB" and
formatSize 1073741824 = "1.0 GB". -/
theorem formatSize_values :
    formatSize 0 = "0 B" ∧ formatSize 1024 = "1.0 KB" ∧
    formatSize 1536 = "1.5 KB" ∧ formatSize 1048576 = "1.0 MB" ∧
    formatSize 1073741824 = "1.0 GB" ∧
    (∀ bytes : Int, 1024 ≤ bytes →
      formatSize bytes =
        toString (roundHalfEven (10 * bytes.toNat)
            (sizeLoop (bytes.toNat / 1024)).1 / 10) ++ "." ++
          toString (roundHalfEven (10 * bytes.toNat)
            (sizeLoop (bytes.toNat / 1024)).1 % 10) ++ " " ++
          String.mk [unitChars.getD (sizeLoop (bytes.toNat / 1024)).2 'E'] ++
          "B") := by
  refine ⟨by decide, by decide, by decide, by decide, by decide, ?_⟩
  intro bytes h
  simp only [formatSize]
  rw [if_neg (by omega)]

/-- Witness for claim C8 at the concrete input 2048. -/
theorem formatSize_values_witness :
    (1024 : Int) ≤ 2048 ∧ formatSize 2048 = "2.0 KB" := by
  refine ⟨by norm_num, ?_⟩
  rw [formatSize_values.2.2.2.2.2 2048 (by norm_num)]
  decide

/-- Counterexample for claim C10: already at the in-range int64 input
2 ^ 60 the loop exponent is 5 and the printed unit is the exabyte
character, so the largest reachable unit is not the petabyte. -/
theorem formatSize_reaches_exabytes :
    (0 : Int) ≤ 2 ^ 60 ∧ (2 ^ 60 : Int) < 2 ^ 63 ∧
    (sizeLoop (((2 : Int) ^ 60).toNat / 1024)).2 = 5 ∧
    unitChars.getD (sizeLoop (((2 : Int) ^ 60).toNat / 1024)).2 'E' = 'E' ∧
    formatSize (2 ^ 60) = "1.0 EB" := by
  refine ⟨by norm_num, by norm_num, by decide, by decide, by decide⟩

/-- Claim C10 (amended): formatSize is total, and for every
non-negative input below 2 ^ 63 the loop exponent is at most 5, hence a
valid index into "KMGTPE"; the largest reachable unit is the exabyte. -/
theorem formatSize_exp_le_five :
    ∀ bytes : Int, 0 ≤ bytes → bytes < 2 ^ 63 →
      (sizeLoop (bytes.toNat / 1024)).2 ≤ 5 ∧
      (sizeLoop (bytes.toNat / 1024)).2 < unitChars.length := by
  intro bytes h0 h63
  have hb : bytes.toNat < 9223372036854775808 := by
    have h63n : bytes < (9223372036854775808 : Int) := by
      calc bytes < 2 ^ 63 := h63
        _ = (9223372036854775808 : Int) := by norm_num
    omega
  have h1 : bytes.toNat / 1024 < 1024 ^ (5 + 1) := by
    have : (1024 : Nat) ^ (5 + 1) = 1152921504606846976 := by norm_num
    omega
  have h2 := sizeLoopAux_exp_le (bytes.toNat / 1024) (bytes.toNat / 1024)
    1024 0 5 h1
  refine ⟨by simpa [sizeLoop] using h2, ?_⟩
  have : unitChars.length = 6 := by decide
  simp only [sizeLoop]
  omega

/-- Witness for claim C10 at the concrete input 2 ^ 60. -/
theorem formatSize_exp_le_five_witness :
    (0 : Int) ≤ 2 ^ 60 ∧ (2 ^ 60 : Int) < 2 ^ 63 ∧
    (sizeLoop (((2 : Int) ^ 60).toNat / 1024)).2 ≤ 5 := by
  exact ⟨by norm_num, by norm_num,
    (formatSize_exp_le_five (2 ^ 60) (by norm_num) (by norm_num)).1⟩

/-- Counterexample for claim C4: the scanner does not re-read the
configured timeout on each tick. With the timeout configured as 30 at
scanner start and raised to 100 before a tick at instant 40, the code
(which captured 30) promotes the idle batch, while a scanner that
re-read the configuration on the tick would not. -/
theorem scanner_rereads_timeout_refuted :
    checkCompletionsRun 30 [(40, 100)] [sampleUploading]
      ≠ checkCompletionsRunSpec 30 [(40, 100)] [sampleUploading] := by
  decide

/-- Claim C4 (amended): the scanner fixes the timeout once, when it
starts, as the clamp of the configuration value read at that moment (a
value below 10 seconds is treated as 30 seconds); every subsequent tick
compares inactivity now - lastActivityTime against that fixed value and
ignores later configuration changes, promoting exactly the uploading
batches whose inactivity strictly exceeds it. -/
theorem scanner_fixed_timeout :
    (∀ cfg : Int, cfg < 10 → clampTimeout cfg = 30) ∧
    (∀ cfg : Int, 10 ≤ cfg → clampTimeout cfg = cfg) ∧
    (∀ (cfgStart : Int) (bs : List Batch) (ticks ticks' : List (Int × Int)),
      ticks.map Prod.fst = ticks'.map Prod.fst →
      checkCompletionsRun cfgStart ticks bs
        = checkCompletionsRun cfgStart ticks' bs) ∧
    (∀ (cfgStart now cfgNow : Int) (ticks : List (Int × Int))
        (bs : List Batch),
      checkCompletionsRun cfgStart ((now, cfgNow) :: ticks) bs
        = checkCompletionsRun cfgStart ticks
            (scanTick (clampTimeout cfgStart) now bs)) ∧
    (∀ (t now : Int) (bs : List Batch), ∀ b ∈ bs,
      b.status = Status.uploading → t < now - b.lastTime →
      { b with status := Status.completed } ∈ scanTick t now bs) ∧
    (∀ (t now : Int) (bs : List Batch), ∀ b ∈ bs,
      b.status = Status.uploading → now - b.lastTime ≤ t →
      b ∈ scanTick t now bs) := by
  refine ⟨?_, ?_, ?_, ?_, ?_, ?_⟩
  · intro cfg h
    simp [clampTimeout, h]
  · intro cfg h
    simp [clampTimeout]
    omega
  · intro cfgStart bs ticks
    induction ticks generalizing bs with
    | nil =>
      intro ticks' h
      cases ticks' with
      | nil => rfl
      | cons t r => simp at h
    | cons t r ih =>
      intro ticks' h
      cases ticks' with
      | nil => simp at h
      | cons t' r' =>
        simp only [List.map_cons, List.cons.injEq] at h
        simp only [checkCompletionsRun, List.foldl_cons]
        rw [h.1]
        exact ih _ _ h.2
  · intro cfgStart now cfgNow ticks bs
    rfl
  · intro t now bs b hb hs ht
    refine List.mem_map.mpr ⟨b, hb, ?_⟩
    show (if b.status = Status.uploading ∧ t < now - b.lastTime then
        { b with status := Status.completed } else b)
      = { b with status := Status.completed }
    rw [if_pos ⟨hs, ht⟩]
  · intro t now bs b hb hs ht
    refine List.mem_map.mpr ⟨b, hb, ?_⟩
    show (if b.status = Status.uploading ∧ t < now - b.lastTime then
        { b with status := Status.completed } else b) = b
    rw [if_neg]
    intro hc
    omega

/-- Witness for claim C4 on a concrete configuration and batch. -/
theorem scanner_fixed_timeout_witness :
    (5 : Int) < 10 ∧ clampTimeout 5 = 30 ∧
    sampleUploading ∈ [sampleUploading] ∧
    sampleUploading.status = Status.uploading ∧
    (30 : Int) < 40 - sampleUploading.lastTime ∧
    { sampleUploading with status := Status.completed }
      ∈ scanTick 30 40 [sampleUploading] := by
  refine ⟨by norm_num, scanner_fixed_timeout.1 5 (by norm_num), by decide,
    by decide, by decide,
    scanner_fixed_timeout.2.2.2.2.1 30 40 [sampleUploading] sampleUploading
      (by decide) (by decide) (by decide)⟩

theorem find?_eq_of_nodup {bs : List Batch} {b : Batch} {id : String}
    (hn : idsNodup bs) (hb : b ∈ bs) (hid : b.id = id) :
    bs.find? (fun x => x.id = id) = some b := by
  induction bs with
  | nil => cases hb
  | cons a r ih =>
    simp only [idsNodup, List.map_cons, List.nodup_cons] at hn
    rcases List.mem_cons.mp hb with rfl | hr
    · simp [List.find?, hid]
    · have hne : a.id ≠ id := by
        intro he
        apply hn.1
        rw [he, ← hid]
        exact List.mem_map_of_mem _ hr
      rw [List.find?_cons_of_neg _ (by simpa using hne)]
      exact ih hn.2 hr

/-- Claim C5: for every path and configuration, isMonitoredFile is
false whenever the lower-cased base name contains or starts with one of
the fixed temporary-artifact markers, regardless of the extension;
otherwise it is true exactly when the lower-cased extension occurs in
the enabled-extension list; in particular video.MP4 and video.mp4 give
the same result under every configuration. -/
theorem isMonitoredFile_spec :
    ∀ (path : String) (config : Config),
      ((∃ pattern ∈ tempFilePatterns,
          strContains (strToLower (filepathBase path)) pattern = true ∨
          strHasPrefix (strToLower (filepathBase path)) pattern = true) →
        isMonitoredFile config path = false) ∧
      (isTempFile path = false →
        (isMonitoredFile config path = true ↔
          strToLower (filepathExt path) ∈ getEnabledExts config)) ∧
      isMonitoredFile config "video.MP4" = isMonitoredFile config "video.mp4" := by
  intro path config
  refine ⟨?_, ?_, ?_⟩
  · rintro ⟨pattern, hmem, hp⟩
    have htemp : isTempFile path = true := by
      simp only [isTempFile, List.any_eq_true]
      refine ⟨pattern, hmem, ?_⟩
      rcases hp with h | h <;> simp [h]
    simp [isMonitoredFile, htemp]
  · intro h
    simp only [isMonitoredFile, h, Bool.false_eq_true, if_false,
      List.any_eq_true, decide_eq_true_eq]
    constructor
    · rintro ⟨x, hx, rfl⟩
      exact hx
    · intro hx
      exact ⟨_, hx, rfl⟩
  · have h1 : isTempFile "video.MP4" = false := by decide
    have h2 : isTempFile "video.mp4" = false := by decide
    have e1 : strToLower (filepathExt "video.MP4") = ".mp4" := by decide
    have e2 : strToLower (filepathExt "video.mp4") = ".mp4" := by decide
    simp [isMonitoredFile, h1, h2, e1, e2]

/-- Witness for claim C5: a file carrying the transient marker .part is
rejected although its extension .mp4 is enabled, and a clean .mp4 file
is accepted, under the default configuration. -/
theorem isMonitoredFile_spec_witness :
    isMonitoredFile defaultConfig "/up/movie.part.mp4" = false ∧
    isMonitoredFile defaultConfig "/up/clip.mp4" = true := by
  constructor
  · exact (isMonitoredFile_spec "/up/movie.part.mp4" defaultConfig).1
      ⟨".part", by decide, Or.inl (by decide)⟩
  · exact ((isMonitoredFile_spec "/up/clip.mp4" defaultConfig).2.1
      (by decide)).mpr (by decide)

/-- Claim C6: the single-batch sign operation turns a batch whose
current status is completed into signed while leaving every other batch
untouched, and is a no-op when the batch with that id is not completed
or when no batch carries the id. -/
theorem signBatch_only_completed :
    ∀ (bs : List Batch) (id : String), idsNodup bs →
      (∀ b ∈ bs, b.id = id → b.status = Status.completed →
        { b with status := Status.signed } ∈ signBatch bs id ∧
        ∀ x ∈ bs, x.id ≠ id → x ∈ signBatch bs id) ∧
      (∀ b ∈ bs, b.id = id → b.status ≠ Status.completed →
        signBatch bs id = bs) ∧
      ((∀ b ∈ bs, b.id ≠ id) → signBatch bs id = bs) := by
  intro bs id hn
  refine ⟨?_, ?_, ?_⟩
  · intro b hb hid hc
    have hf := find?_eq_of_nodup hn hb hid
    constructor
    · simp only [signBatch, hf, hc, if_true]
      refine List.mem_map.mpr ⟨b, hb, ?_⟩
      show (if b.id = id then { b with status := Status.signed } else b)
        = { b with status := Status.signed }
      rw [if_pos hid]
    · intro x hx hne
      simp only [signBatch, hf, hc, if_true]
      refine List.mem_map.mpr ⟨x, hx, ?_⟩
      show (if x.id = id then { x with status := Status.signed } else x) = x
      rw [if_neg hne]
  · intro b hb hid hc
    have hf := find?_eq_of_nodup hn hb hid
    simp only [signBatch, hf]
    rw [if_neg hc]
  · intro h
    have hf : bs.find? (fun x => x.id = id) = none :=
      List.find?_eq_none.mpr (fun x hx => by simp [h x hx])
    simp only [signBatch, hf]

/-- Witness for claim C6: signing a completed batch marks it signed,
and signing an uploading batch changes nothing. -/
theorem signBatch_only_completed_witness :
    { sampleCompleted with status := Status.signed }
      ∈ signBatch [sampleCompleted] "1" ∧
    signBatch [sampleUploading] "1" = [sampleUploading] := by
  constructor
  · exact ((signBatch_only_completed [sampleCompleted] "1"
      (by unfold idsNodup; decide)).1
      sampleCompleted (by decide) (by decide) (by decide)).1
  · exact (signBatch_only_completed [sampleUploading] "1"
      (by unfold idsNodup; decide)).2.1
      sampleUploading (by decide) (by decide) (by decide)

/-- Claim C7: clearSigned removes exactly the signed batches and keeps
every uploading and completed batch unchanged, in order. -/
theorem clearSigned_removes_exactly_signed :
    ∀ bs : List Batch,
      (clearSigned bs).Sublist bs ∧
      (∀ b ∈ bs, b.status ≠ Status.signed → b ∈ clearSigned bs) ∧
      (∀ b ∈ bs, b.status = Status.signed → b ∉ clearSigned bs) ∧
      (∀ b ∈ clearSigned bs, b ∈ bs ∧ b.status ≠ Status.signed) := by
  intro bs
  refine ⟨List.filter_sublist bs, ?_, ?_, ?_⟩
  · intro b hb h
    exact List.mem_filter.mpr ⟨hb, by simpa using h⟩
  · intro b _ h hmem
    have h2 := (List.mem_filter.mp hmem).2
    simp [h] at h2
  · intro b hmem
    have h := List.mem_filter.mp hmem
    exact ⟨h.1, by simpa using h.2⟩

/-- Witness for claim C7 on a registry holding one uploading and one
signed batch. -/
theorem clearSigned_removes_exactly_signed_witness :
    sampleUploading ∈ clearSigned [sampleUploading, sampleSigned] ∧
    sampleSigned ∉ clearSigned [sampleUploading, sampleSigned] := by
  constructor
  · exact (clearSigned_removes_exactly_signed
      [sampleUploading, sampleSigned]).2.1 sampleUploading (by decide) (by decide)
  · exact (clearSigned_removes_exactly_signed
      [sampleUploading, sampleSigned]).2.2.1 sampleSigned (by decide) (by decide)

/-- Counterexample for claim C9: two batch creations that observe the
same clock value (instant 5, in the folders /a and /b) receive the same
id "5", and the second map insert overwrites the first: both calls
report a new batch, yet the registry ends with a single batch, the one
for /b, the /a batch having been silently dropped. -/
theorem batch_id_collision :
    collideStep1.2 = true ∧ collideStep2.2 = true ∧
    collideStep2.1.length = 1 ∧
    (∀ b ∈ collideStep2.1, b.folder = "/b") := by
  decide

/-- Claim C9 (amended): a batch id is the decimal rendering of the
creation timestamp, so ids stay unique and creation never overwrites an
existing registry entry as long as every creation observes a fresh
clock value: when the id derived from the creation instant is not
already present, the creating insert keeps every existing batch and
grows the registry by exactly one. -/
theorem batch_id_fresh_no_overwrite :
    ∀ (bs : List Batch) (folder fileName : String) (fileSize now : Int),
      (∀ b ∈ bs, b.id ≠ toString now) →
      (addFileToBatch bs folder fileName fileSize now).2 = true →
      (∀ b ∈ bs, b ∈ (addFileToBatch bs folder fileName fileSize now).1) ∧
      (addFileToBatch bs folder fileName fileSize now).1.length
        = bs.length + 1 := by
  intro bs folder fileName fileSize now hfresh hnew
  cases hf : bs.find? (isUploadingIn folder) with
  | some b =>
    simp [addFileToBatch, hf] at hnew
  | none =>
    have hid : (addFileUpdate (newBatch folder now) fileName fileSize now).id
        = toString now := by
      rw [addFileUpdate_id]
      rfl
    have hfil : bs.filter
        (fun x => x.id ≠ (addFileUpdate (newBatch folder now) fileName
          fileSize now).id) = bs := by
      apply List.filter_eq_self.mpr
      intro x hx
      simp [hid, hfresh x hx]
    constructor
    · intro b hb
      simp only [addFileToBatch, hf, insertBatch]
      rw [hfil]
      exact List.mem_cons_of_mem _ hb
    · simp only [addFileToBatch, hf, insertBatch]
      rw [hfil]
      simp

/-- Witness for claim C9: adding a file in a fresh folder at the fresh
instant 7 keeps the existing batch in the registry. -/
theorem batch_id_fresh_no_overwrite_witness :
    (∀ b ∈ [sampleUploading], b.id ≠ toString (7 : Int)) ∧
    (addFileToBatch [sampleUploading] "/b" "y.mp4" 1 7).2 = true ∧
    sampleUploading ∈ (addFileToBatch [sampleUploading] "/b" "y.mp4" 1 7).1 := by
  refine ⟨by decide, by decide, ?_⟩
  exact (batch_id_fresh_no_overwrite [sampleUploading] "/b" "y.mp4" 1 7
    (by decide) (by decide)).1 sampleUploading (by decide)

theorem addFileUpdate_files (b : Batch) (n : String) (sz now : Int) :
    (addFileUpdate b n sz now).files
      = if n ∈ b.files then b.files else b.files ++ [n] := by
  simp only [addFileUpdate]
  split <;> split <;> simp_all

theorem addFileUpdate_sizes_lt (b : Batch) (n : String) (sz now : Int)
    (h : lookupSize b.fileSizes n < sz) :
    (addFileUpdate b n sz now).fileSizes = setSize b.fileSizes n sz ∧
    (addFileUpdate b n sz now).totalSize
      = b.totalSize + (sz - lookupSize b.fileSizes n) := by
  simp only [addFileUpdate]
  by_cases hmem : n ∈ b.files <;> simp [hmem, h]

theorem addFileUpdate_sizes_ge (b : Batch) (n : String) (sz now : Int)
    (h : ¬ lookupSize b.fileSizes n < sz) :
    (addFileUpdate b n sz now).fileSizes = b.fileSizes ∧
    (addFileUpdate b n sz now).totalSize = b.totalSize := by
  simp only [addFileUpdate]
  by_cases hmem : n ∈ b.files <;> simp [hmem, h]

theorem addFileUpdate_WF {b : Batch} (h : BatchWF b) (n : String)
    (sz now : Int) : BatchWF (addFileUpdate b n sz now) := by
  constructor
  · rw [addFileUpdate_files]
    split
    · exact h.1
    case isFalse hmem =>
      simp [List.nodup_append, h.1, hmem]
  · by_cases hsz : lookupSize b.fileSizes n < sz
    · obtain ⟨hs, ht⟩ := addFileUpdate_sizes_lt b n sz now hsz
      rw [hs, ht, sum_setSize, h.2]
      ring
    · obtain ⟨hs, ht⟩ := addFileUpdate_sizes_ge b n sz now hsz
      rw [hs, ht, h.2]

theorem mem_updateFirst {p : Batch → Bool} {f : Batch → Batch}
    {l : List Batch} {x : Batch} (hx : x ∈ updateFirst p f l) :
    x ∈ l ∨ ∃ a ∈ l, x = f a := by
  induction l with
  | nil => cases hx
  | cons b r ih =>
    simp only [updateFirst] at hx
    by_cases hp : p b
    · rw [if_pos hp] at hx
      rcases List.mem_cons.mp hx with rfl | hr
      · exact Or.inr ⟨b, List.mem_cons_self _ _, rfl⟩
      · exact Or.inl (List.mem_cons_of_mem _ hr)
    · rw [if_neg hp] at hx
      rcases List.mem_cons.mp hx with rfl | hr
      · exact Or.inl (List.mem_cons_self _ _)
      · rcases ih hr with h1 | ⟨a, ha, rfl⟩
        · exact Or.inl (List.mem_cons_of_mem _ h1)
        · exact Or.inr ⟨a, List.mem_cons_of_mem _ ha, rfl⟩

theorem newBatch_WF (folder : String) (now : Int) :
    BatchWF (newBatch folder now) := by
  constructor <;> simp [newBatch, BatchWF]

theorem applyOp_WF {bs : List Batch} (h : ∀ b ∈ bs, BatchWF b) (op : Op) :
    ∀ b ∈ applyOp bs op, BatchWF b := by
  intro x hx
  cases op with
  | addFile f n sz now =>
    simp only [applyOp, addFileToBatch] at hx
    cases hf : bs.find? (isUploadingIn f) with
    | some a =>
      rw [hf] at hx
      simp only at hx
      rcases mem_updateFirst hx with h1 | ⟨a, ha, rfl⟩
      · exact h x h1
      · exact addFileUpdate_WF (h a ha) n sz now
    | none =>
      rw [hf] at hx
      simp only [insertBatch] at hx
      rcases List.mem_cons.mp hx with rfl | hr
      · exact addFileUpdate_WF (newBatch_WF f now) n sz now
      · exact h x ((List.mem_filter.mp hr).1)
  | scan t now =>
    simp only [applyOp, scanTick] at hx
    rcases List.mem_map.mp hx with ⟨a, ha, rfl⟩
    have hwa := h a ha
    split <;> exact hwa
  | sign id =>
    simp only [applyOp, signBatch] at hx
    cases hf : bs.find? (fun b => b.id = id) with
    | none =>
      rw [hf] at hx
      exact h x hx
    | some a =>
      rw [hf] at hx
      simp only at hx
      by_cases hc : a.status = Status.completed
      · rw [if_pos hc] at hx
        rcases List.mem_map.mp hx with ⟨a2, ha2, rfl⟩
        have hwa := h a2 ha2
        split <;> exact hwa
      · rw [if_neg hc] at hx
        exact h x hx
  | signAllOp =>
    simp only [applyOp, signAll] at hx
    rcases List.mem_map.mp hx with ⟨a, ha, rfl⟩
    have hwa := h a ha
    split <;> exact hwa
  | clearSignedOp =>
    simp only [applyOp, clearSigned] at hx
    exact h x ((List.mem_filter.mp hx).1)

theorem runOps_WF : ∀ (ops : List Op) (bs : List Batch),
    (∀ b ∈ bs, BatchWF b) → ∀ b ∈ runOps bs ops, BatchWF b := by
  intro ops
  induction ops with
  | nil => intro bs h; exact h
  | cons op rest ih =>
    intro bs h
    exact ih (applyOp bs op) (applyOp_WF h op)

/-- Claim C2: across every sequence of registry operations a batch's
file list never holds a duplicate name (re-observing a name does not
re-insert it), the running total always equals the sum of the recorded
per-file sizes (absent map entries counting 0), a recorded size and the
total move only when the newly observed size strictly exceeds the
recorded one, and neither a per-file size nor the total ever
decreases. -/
theorem batch_size_invariants :
    (∀ (b : Batch) (fileName : String) (fileSize now : Int), BatchWF b →
      BatchWF (addFileUpdate b fileName fileSize now) ∧
      b.totalSize ≤ (addFileUpdate b fileName fileSize now).totalSize ∧
      (fileName ∈ b.files →
        (addFileUpdate b fileName fileSize now).files = b.files) ∧
      (∀ k, lookupSize b.fileSizes k
        ≤ lookupSize (addFileUpdate b fileName fileSize now).fileSizes k) ∧
      (fileSize ≤ lookupSize b.fileSizes fileName →
        (addFileUpdate b fileName fileSize now).fileSizes = b.fileSizes ∧
        (addFileUpdate b fileName fileSize now).totalSize = b.totalSize)) ∧
    (∀ ops : List Op, ∀ b ∈ runOps [] ops, BatchWF b) := by
  constructor
  · intro b fileName fileSize now hwf
    refine ⟨addFileUpdate_WF hwf fileName fileSize now, ?_, ?_, ?_, ?_⟩
    · by_cases hsz : lookupSize b.fileSizes fileName < fileSize
      · obtain ⟨_, ht⟩ := addFileUpdate_sizes_lt b fileName fileSize now hsz
        omega
      · obtain ⟨_, ht⟩ := addFileUpdate_sizes_ge b fileName fileSize now hsz
        omega
    · intro hmem
      rw [addFileUpdate_files, if_pos hmem]
    · intro k
      by_cases hsz : lookupSize b.fileSizes fileName < fileSize
      · obtain ⟨hs, _⟩ := addFileUpdate_sizes_lt b fileName fileSize now hsz
        rw [hs]
        by_cases hk : k = fileName
        · subst hk
          rw [lookupSize_setSize_self]
          omega
        · rw [lookupSize_setSize_ne _ _ _ _ hk]
      · obtain ⟨hs, _⟩ := addFileUpdate_sizes_ge b fileName fileSize now hsz
        rw [hs]
    · intro hle
      have hsz : ¬ lookupSize b.fileSizes fileName < fileSize := by omega
      exact addFileUpdate_sizes_ge b fileName fileSize now hsz
  · intro ops
    exact runOps_WF ops [] (by intro b hb; cases hb)

/-- Witness for claim C2 on a concrete well-formed batch: re-adding the
known file a.mp4 with the smaller observed size 40 changes neither the
size map nor the total. -/
theorem batch_size_invariants_witness :
    BatchWF sampleUploading ∧
    (addFileUpdate sampleUploading "a.mp4" 40 9).fileSizes
      = sampleUploading.fileSizes ∧
    (addFileUpdate sampleUploading "a.mp4" 40 9).totalSize
      = sampleUploading.totalSize := by
  have hwf : BatchWF sampleUploading := by
    unfold BatchWF
    refine ⟨by decide, by decide⟩
  have h := (batch_size_invariants.1 sampleUploading "a.mp4" 40 9 hwf).2.2.2.2
    (by decide)
  exact ⟨hwf, h.1, h.2⟩

/-- Claim C3: under every registry operation a batch's status only
moves forward along uploading, completed, signed — the batch either
survives with the same id and a status of at least its old rank, or is
removed, which only the clear operation does and only to signed
batches; moreover a scan tick leaves every non-uploading batch (in
particular every batch promoted to completed by an earlier tick)
exactly unchanged. Creations are assumed to observe fresh clock values,
since an id collision (claim C9) silently replaces a registry entry. -/
theorem status_forward_only :
    (∀ (bs : List Batch) (op : Op) (b : Batch), opFresh bs op → b ∈ bs →
      (∃ b', b' ∈ applyOp bs op ∧ b'.id = b.id ∧
        statusRank b.status ≤ statusRank b'.status) ∨
      (op = Op.clearSignedOp ∧ b.status = Status.signed)) ∧
    (∀ (t now : Int) (bs : List Batch) (b : Batch), b ∈ bs →
      b.status ≠ Status.uploading → b ∈ scanTick t now bs) := by
  constructor
  · intro bs op b hfresh hb
    cases op with
    | addFile f n sz now =>
      left
      simp only [applyOp, addFileToBatch]
      cases hf : bs.find? (isUploadingIn f) with
      | some a =>
        simp only []
        rcases updateFirst_mem (isUploadingIn f)
            (fun x => addFileUpdate x n sz now) hb with h1 | ⟨_, h2⟩
        · exact ⟨b, h1, rfl, le_refl _⟩
        · refine ⟨addFileUpdate b n sz now, h2, addFileUpdate_id b n sz now, ?_⟩
          rw [addFileUpdate_status]
      | none =>
        refine ⟨b, ?_, rfl, le_refl _⟩
        simp only [insertBatch]
        apply List.mem_cons_of_mem
        apply List.mem_filter.mpr
        refine ⟨hb, ?_⟩
        have : b.id ≠ toString now := hfresh b hb
        simpa [addFileUpdate_id, newBatch] using this
    | scan t now =>
      left
      by_cases hc : b.status = Status.uploading ∧ t < now - b.lastTime
      · refine ⟨{ b with status := Status.completed }, ?_, rfl, ?_⟩
        · refine List.mem_map.mpr ⟨b, hb, ?_⟩
          show (if b.status = Status.uploading ∧ t < now - b.lastTime then
              { b with status := Status.completed } else b)
            = { b with status := Status.completed }
          rw [if_pos hc]
        · rw [hc.1]
          simp [statusRank]
      · refine ⟨b, ?_, rfl, le_refl _⟩
        refine List.mem_map.mpr ⟨b, hb, ?_⟩
        show (if b.status = Status.uploading ∧ t < now - b.lastTime then
            { b with status := Status.completed } else b) = b
        rw [if_neg hc]
    | sign id =>
      left
      simp only [applyOp, signBatch]
      cases hf : bs.find? (fun x => x.id = id) with
      | none => exact ⟨b, hb, rfl, le_refl _⟩
      | some a =>
        simp only []
        by_cases hc : a.status = Status.completed
        · rw [if_pos hc]
          by_cases hid : b.id = id
          · refine ⟨{ b with status := Status.signed }, ?_, rfl, ?_⟩
            · refine List.mem_map.mpr ⟨b, hb, ?_⟩
              show (if b.id = id then { b with status := Status.signed }
                  else b) = { b with status := Status.signed }
              rw [if_pos hid]
            · exact statusRank_le_two b.status
          · refine ⟨b, ?_, rfl, le_refl _⟩
            refine List.mem_map.mpr ⟨b, hb, ?_⟩
            show (if b.id = id then { b with status := Status.signed }
                else b) = b
            rw [if_neg hid]
        · rw [if_neg hc]
          exact ⟨b, hb, rfl, le_refl _⟩
    | signAllOp =>
      left
      by_cases hc : b.status = Status.completed
      · refine ⟨{ b with status := Status.signed }, ?_, rfl, ?_⟩
        · refine List.mem_map.mpr ⟨b, hb, ?_⟩
          show (if b.status = Status.completed then
              { b with status := Status.signed } else b)
            = { b with status := Status.signed }
          rw [if_pos hc]
        · exact statusRank_le_two b.status
      · refine ⟨b, ?_, rfl, le_refl _⟩
        refine List.mem_map.mpr ⟨b, hb, ?_⟩
        show (if b.status = Status.completed then
            { b with status := Status.signed } else b) = b
        rw [if_neg hc]
    | clearSignedOp =>
      by_cases hc : b.status = Status.signed
      · exact Or.inr ⟨rfl, hc⟩
      · left
        refine ⟨b, ?_, rfl, le_refl _⟩
        exact List.mem_filter.mpr ⟨hb, by simpa using hc⟩
  · intro t now bs b hb h
    exact scanTick_mem_of_not_uploading t now hb h

/-- Witness for claim C3: a scan tick over a registry holding one
uploading batch yields a successor with the same id and a status rank
at least as large; and the completed batch survives a scan tick
unchanged. -/
theorem status_forward_only_witness :
    (∃ b', b' ∈ applyOp [sampleUploading] (Op.scan 30 40) ∧
      b'.id = sampleUploading.id ∧
      statusRank sampleUploading.status ≤ statusRank b'.status) ∧
    sampleCompleted ∈ scanTick 30 40 [sampleCompleted] := by
  constructor
  · rcases status_forward_only.1 [sampleUploading] (Op.scan 30 40)
        sampleUploading trivial (by decide) with h | h
    · exact h
    · exact Op.noConfusion h.1
  · exact status_forward_only.2 30 40 [sampleCompleted] sampleCompleted
      (by decide) (by decide)

theorem isUploadingIn_addFileUpdate (fo : String) (x : Batch)
    (n : String) (sz now : Int) :
    isUploadingIn fo (addFileUpdate x n sz now) = isUploadingIn fo x := by
  simp [isUploadingIn, addFileUpdate_folder, addFileUpdate_status]

theorem isUploadingIn_newBatchUpdate (fo : String) (n : String)
    (sz now : Int) :
    isUploadingIn fo (addFileUpdate (newBatch fo now) n sz now) = true := by
  rw [isUploadingIn_addFileUpdate]
  simp [isUploadingIn, newBatch]

theorem addFile_create (fo : String) (bs : List Batch) (n : String)
    (sz now : Int) (h : ∀ b ∈ bs, b.folder ≠ fo) :
    (addFileToBatch bs fo n sz now).2 = true ∧
    (addFileToBatch bs fo n sz now).1.countP (isUploadingIn fo) = 1 := by
  have hf : bs.find? (isUploadingIn fo) = none := by
    apply List.find?_eq_none.mpr
    intro x hx
    simp only [isUploadingIn, decide_eq_true_eq, not_and]
    intro hfold
    exact absurd hfold (h x hx)
  simp only [addFileToBatch, hf, insertBatch]
  refine ⟨trivial, ?_⟩
  rw [List.countP_cons_of_pos _ _ (isUploadingIn_newBatchUpdate fo n sz now)]
  have hzero : (bs.filter (fun x => x.id
      ≠ (addFileUpdate (newBatch fo now) n sz now).id)).countP
      (isUploadingIn fo) = 0 := by
    apply List.countP_eq_zero.mpr
    intro x hx
    simp only [isUploadingIn, decide_eq_true_eq, not_and]
    intro hfold
    exact absurd hfold (h x (List.mem_filter.mp hx).1)
  omega

theorem runAddFiles_steady (fo : String) :
    ∀ (events : List (String × Int × Int)) (bs : List Batch),
      bs.countP (isUploadingIn fo) = 1 →
      (runAddFiles fo bs events).2 = List.replicate events.length false ∧
      (runAddFiles fo bs events).1.countP (isUploadingIn fo) = 1 := by
  intro events
  induction events with
  | nil =>
    intro bs h
    exact ⟨rfl, h⟩
  | cons e rest ih =>
    intro bs h
    have hsome : (bs.find? (isUploadingIn fo)).isSome := by
      rw [List.find?_isSome]
      exact List.countP_pos_iff.mp (by omega)
    obtain ⟨a, hf⟩ := Option.isSome_iff_exists.mp hsome
    simp only [runAddFiles, addFileToBatch, hf]
    have hcount : (updateFirst (isUploadingIn fo)
        (fun b => addFileUpdate b e.1 e.2.1 e.2.2) bs).countP
        (isUploadingIn fo) = 1 := by
      rw [updateFirst_countP _ _ _ _
        (fun x => isUploadingIn_addFileUpdate fo x e.1 e.2.1 e.2.2)]
      exact h
    obtain ⟨h1, h2⟩ := ih _ hcount
    simp only [List.length_cons, List.replicate]
    exact ⟨by rw [h1], h2⟩

theorem applyOp_atMostOne {bs : List Batch} (h : atMostOneUploading bs)
    (op : Op) : atMostOneUploading (applyOp bs op) := by
  intro fo
  cases op with
  | addFile f n sz now =>
    simp only [applyOp, addFileToBatch]
    cases hf : bs.find? (isUploadingIn f) with
    | some a =>
      simp only []
      rw [updateFirst_countP _ _ _ _
        (fun x => isUploadingIn_addFileUpdate fo x n sz now)]
      exact h fo
    | none =>
      simp only [insertBatch]
      have hnone : ∀ x ∈ bs, ¬ isUploadingIn f x = true :=
        fun x hx => List.find?_eq_none.mp hf x hx
      by_cases hfo : fo = f
      · subst hfo
        rw [List.countP_cons_of_pos _ _ (isUploadingIn_newBatchUpdate fo n sz now)]
        have hzero : (bs.filter (fun x => x.id
            ≠ (addFileUpdate (newBatch fo now) n sz now).id)).countP
            (isUploadingIn fo) = 0 := by
          apply List.countP_eq_zero.mpr
          intro x hx
          exact hnone x (List.mem_filter.mp hx).1
        omega
      · rw [List.countP_cons_of_neg]
        · exact le_trans (((List.filter_sublist bs).countP_le) _) (h fo)
        · rw [isUploadingIn_addFileUpdate]
          simp only [isUploadingIn, newBatch, decide_eq_true_eq, not_and]
          intro hfold
          exact absurd hfold.symm hfo
  | scan t now =>
    simp only [applyOp, scanTick]
    refine le_trans (countP_map_le _ _ _ ?_) (h fo)
    intro x _ hq
    by_cases hc : x.status = Status.uploading ∧ t < now - x.lastTime
    · rw [if_pos hc] at hq
      simp [isUploadingIn] at hq
    · rwa [if_neg hc] at hq
  | sign id =>
    simp only [applyOp, signBatch]
    cases hf : bs.find? (fun x => x.id = id) with
    | none => exact h fo
    | some a =>
      simp only []
      by_cases hc : a.status = Status.completed
      · rw [if_pos hc]
        refine le_trans (countP_map_le _ _ _ ?_) (h fo)
        intro x _ hq
        by_cases hid : x.id = id
        · rw [if_pos hid] at hq
          simp [isUploadingIn] at hq
        · rwa [if_neg hid] at hq
      · rw [if_neg hc]
        exact h fo
  | signAllOp =>
    simp only [applyOp, signAll]
    refine le_trans (countP_map_le _ _ _ ?_) (h fo)
    intro x _ hq
    by_cases hc : x.status = Status.completed
    · rw [if_pos hc] at hq
      simp [isUploadingIn] at hq
    · rwa [if_neg hc] at hq
  | clearSignedOp =>
    exact le_trans (((List.filter_sublist bs).countP_le) _) (h fo)

theorem runOps_atMostOne : ∀ (ops : List Op) (bs : List Batch),
    atMostOneUploading bs → atMostOneUploading (runOps bs ops) := by
  intro ops
  induction ops with
  | nil => intro bs h; exact h
  | cons op rest ih =>
    intro bs h
    exact ih (applyOp bs op) (applyOp_atMostOne h op)

/-- Claim C1: starting from a registry holding no batch for a folder,
a nonempty run of accepted events for that folder creates exactly one
uploading batch — isNewBatch is true for the first event and false for
every later one, and the final registry holds exactly one uploading
batch for the folder; and across every operation sequence from the
empty registry, at most one uploading batch per distinct folder ever
exists. -/
theorem addFile_single_uploading_batch :
    (∀ (fo : String) (bs : List Batch)
        (events : List (String × Int × Int)),
      events ≠ [] → (∀ b ∈ bs, b.folder ≠ fo) →
      (runAddFiles fo bs events).2
        = true :: List.replicate (events.length - 1) false ∧
      (runAddFiles fo bs events).1.countP (isUploadingIn fo) = 1) ∧
    (∀ ops : List Op, atMostOneUploading (runOps [] ops)) := by
  constructor
  · intro fo bs events hne hb
    cases events with
    | nil => exact absurd rfl hne
    | cons e rest =>
      obtain ⟨hnew, hcount⟩ := addFile_create fo bs e.1 e.2.1 e.2.2 hb
      obtain ⟨h1, h2⟩ := runAddFiles_steady fo rest
        (addFileToBatch bs fo e.1 e.2.1 e.2.2).1 hcount
      simp only [runAddFiles]
      refine ⟨?_, h2⟩
      rw [hnew, h1]
      simp
  · intro ops
    apply runOps_atMostOne
    intro fo
    simp [atMostOneUploading]

/-- Witness for claim C1: one event in the empty registry reports a new
batch and leaves exactly one uploading batch for its folder. -/
theorem addFile_single_uploading_batch_witness :
    (runAddFiles "/up" [] [("a.mp4", (100, 5))]).2 = [true] ∧
    (runAddFiles "/up" [] [("a.mp4", (100, 5))]).1.countP
      (isUploadingIn "/up") = 1 := by
  have h := addFile_single_uploading_batch.1 "/up" [] [("a.mp4", (100, 5))]
    (by decide) (by intro b hb; cases hb)
  exact ⟨h.1, h.2⟩

end FidruaWatch
